import Mathlib

/-!
Verification of the ORION information-integration proxy engine
(`orion_pyphi_integration.py`) against its specification.

The engine works on small discrete networks: a transition table (2^n rows
of n per-node activation probabilities), an n x n connectivity matrix and a
state (bit vector of length n).  We embed the numeric computations over ℚ
(the Python code uses IEEE doubles; all claims under test are either exact
identities or inequalities far from the rounding scale) and list-valued
tables, translating each Python function one-to-one.

Index conventions follow the source: a state maps to a row index by
`sum(state[i] * 2**i)` (least significant bit first), and `format(row_idx,
"0nb")` followed by the reversal in `_partitioned_tpm` likewise yields the
least-significant-bit-first bit list `fun i => rowIdx / 2 ^ i % 2`.
-/

namespace OrionPhi

/-- Transition tables and connectivity matrices are row-major lists of
rows, mirroring the nested Python lists fed to `np.array`. -/
abbrev Table := List (List ℚ)

/-- Entry lookup `t[r][c]`, with the out-of-range default 0 (the claims
that touch out-of-range behaviour supply well-formedness hypotheses). -/
def getEntry (t : Table) (r c : ℕ) : ℚ := (t.getD r []).getD c 0

/-- Row index of a state: `sum(state[i] * (2 ** i) for i in range(n))`. -/
def rowIndex (state : List ℕ) (n : ℕ) : ℕ :=
  ((List.range n).map (fun i => state.getD i 0 * 2 ^ i)).sum

/-- Least-significant-bit-first bit list of a row index, as produced by
`format(row_idx, f"0nb")` followed by the reversal in `_partitioned_tpm`,
and by the generator `tuple((state_idx >> i) & 1 for i in range(n))`. -/
def bitsOf (x n : ℕ) : List ℕ := (List.range n).map (fun i => x / 2 ^ i % 2)

/-- Column means `np.mean(tpm, axis=0)`: what each node does on average. -/
def colMeans (tpm : Table) (n : ℕ) : List ℚ :=
  (List.range n).map (fun j => (tpm.map (fun row => row.getD j 0)).sum / (tpm.length : ℚ))

/-- Elementwise `np.sum(np.abs(p - q))`. -/
def absDiffSum (p q : List ℚ) : ℚ := (p.zipWith (fun a b => |a - b|) q).sum

/-- Cumulative sums, `np.cumsum`. -/
def cumsum (l : List ℚ) : List ℚ := (l.scanl (· + ·) 0).tail

/-- Normalisation guard used by `_emd_simple` and `_distribution_distance`:
divide by the total if it is positive, otherwise leave untouched. -/
def normalizeIfPos (p : List ℚ) : List ℚ :=
  if 0 < p.sum then p.map (· / p.sum) else p

/-- Embedding of `_emd_simple`: normalise both distributions, then sum the
absolute differences of their cumulative sums. -/
def emdSimple (p q : List ℚ) : ℚ :=
  absDiffSum (cumsum (normalizeIfPos p)) (cumsum (normalizeIfPos q))

/-- Unnormalised cause distribution of `_distribution_distance`: for every
candidate predecessor row, the product over nodes of `tpm[past][i]` when
`state[i] = 1` and `1 - tpm[past][i]` otherwise. -/
def causeDist (tpm : Table) (state : List ℕ) (n : ℕ) : List ℚ :=
  (List.range (2 ^ n)).map (fun past =>
    ((List.range n).map (fun i =>
      if state.getD i 0 = 1 then getEntry tpm past i else 1 - getEntry tpm past i)).prod)

/-- Uniform baseline `np.ones(n_states) / n_states`. -/
def uniformDist (n : ℕ) : List ℚ := List.replicate (2 ^ n) ((1 : ℚ) / (2 ^ n : ℚ))

/-- Embedding of `_distribution_distance`: effect distance (L1 between the
state row and the column means) plus cause distance (EMD between the
normalised cause distribution and the uniform baseline). -/
def distributionDistance (tpm : Table) (state : List ℕ) (n : ℕ) : ℚ :=
  let effectDist := tpm.getD (rowIndex state n) []
  let unconstrained := colMeans tpm n
  let effectDistance := absDiffSum effectDist unconstrained
  let causeDistance := emdSimple (normalizeIfPos (causeDist tpm state n)) (uniformDist n)
  causeDistance + effectDistance

/-- Causal predecessors of `target`: the sources `s` with `cm[s][target] > 0`. -/
def predSources (cm : Table) (n target : ℕ) : List ℕ :=
  (List.range n).filter (fun s => decide (0 < getEntry cm s target))

/-- Predecessors of `target` on the other side of the bipartition: the
source code labels a node by membership in `part_a` and keeps the sources
whose label differs from the label of `target`. -/
def crossSources (cm : Table) (partA : List ℕ) (n target : ℕ) : List ℕ :=
  (predSources cm n target).filter (fun s => decide (¬ (s ∈ partA ↔ target ∈ partA)))

/-- Predecessors of `target` on the same side: `[s for s in sources if s
not in cross_sources]`. -/
def sameSources (cm : Table) (partA : List ℕ) (n target : ℕ) : List ℕ :=
  (predSources cm n target).filter (fun s => decide (s ∉ crossSources cm partA n target))

/-- Loop `for ci, cs in enumerate(cross_sources): test_state[cs] =
(combo_idx >> ci) & 1`, with the running enumeration index made explicit. -/
def setCross (st : List ℕ) : List ℕ → ℕ → ℕ → List ℕ
  | [], _, _ => st
  | cs :: rest, ci, combo => setCross (st.set cs (combo / 2 ^ ci % 2)) rest (ci + 1) combo

/-- Entry of the cut table for one row and one target node, translating the
body of the double loop of `_partitioned_tpm`: copy the original entry when
no cross-partition predecessor exists, average over all assignments of the
cross-partition predecessor bits when a same-partition predecessor remains,
and use 0.5 otherwise.  `orig` is the entry of the `np.copy` of the table. -/
def cutEntry (tpm cm : Table) (partA : List ℕ) (n rowIdx target : ℕ) (orig : ℚ) : ℚ :=
  let cross := crossSources cm partA n target
  if cross = [] then orig
  else if sameSources cm partA n target = [] then 1 / 2
  else
    ((List.range (2 ^ cross.length)).map (fun combo =>
      getEntry tpm (rowIndex (setCross (bitsOf rowIdx n) cross 0 combo) n) target)).sum
      / ((2 : ℚ) ^ cross.length)

/-- Embedding of `_partitioned_tpm`: start from a copy of the table and
rewrite every entry via `cutEntry` (the loop runs over `range(2 ** n)` rows
and `range(n)` targets, which coincides with the extent of the copy under
the shape invariant).  Only membership in `part_a` is consulted, exactly as
in the source; `_partB` is kept to mirror the signature. -/
def cutTpm (tpm cm : Table) (partA _partB : List ℕ) (n : ℕ) : Table :=
  tpm.mapIdx (fun rowIdx row =>
    row.mapIdx (fun target entry => cutEntry tpm cm partA n rowIdx target entry))

/-- Test of `_find_mip` for a connectivity edge crossing the bipartition in
either direction. -/
def hasCrossConnection (cm : Table) (partA partB : List ℕ) : Bool :=
  partA.any (fun a => partB.any (fun b =>
    decide (0 < getEntry cm a b) || decide (0 < getEntry cm b a)))

/-- Combinations of `r` elements of a list in the order produced by
`itertools.combinations` (size-r sublists, lexicographic over positions). -/
def combinationsAux : List ℕ → ℕ → List (List ℕ)
  | _, 0 => [[]]
  | [], _ + 1 => []
  | x :: xs, r + 1 => (combinationsAux xs r).map (fun c => x :: c) ++ combinationsAux xs (r + 1)

/-- Combinations in the argument order of `itertools.combinations(pool, r)`. -/
def combinations (r : ℕ) (xs : List ℕ) : List (List ℕ) := combinationsAux xs r

/-- Enumeration order of `_find_mip`: group sizes `r = 1 .. n-1`, within a
size the combinations of side A in lexicographic order, side B being the
complement (`node_set - part_a`, sorted since it is a filter of `range n`). -/
def bipartitionsList (n : ℕ) : List (List ℕ × List ℕ) :=
  ((List.range (n - 1)).map (fun k =>
    (combinations (k + 1) (List.range n)).map (fun A =>
      (A, (List.range n).filter (fun x => decide (x ∉ A)))))).flatten

/-- Bipartitions that reach the evaluation body of the loop, i.e. survive
the `if not part_b: continue` guard. -/
def evaluatedBipartitions (n : ℕ) : List (List ℕ × List ℕ) :=
  (bipartitionsList n).filter (fun p => decide (p.2 ≠ []))

/-- Rounding of Python `round(x, 6)` on the idealised rationals: round half
to even at the sixth decimal. -/
def pyRound (x : ℚ) : ℤ :=
  let f := ⌊x⌋
  if x - f < 1 / 2 then f
  else if 1 / 2 < x - f then f + 1
  else if f % 2 = 0 then f else f + 1

/-- Round to six decimal places, as `round(phi, 6)` in `_find_mip`. -/
def round6 (x : ℚ) : ℚ := (pyRound (x * 1000000) : ℚ) / 1000000

/-- Accumulator of the minimisation loop of `_find_mip`: the running
minimum (`none` plays the role of `float("inf")`) and the best cut. -/
abbrev MipAcc := Option ℚ × Option (List ℕ × List ℕ)

/-- Body of the bipartition loop of `_find_mip`.  The second component
threads the network definition (transition table and connectivity matrix)
through the loop: every read goes through it, and the cut table is a fresh
value, so the network is handed on unchanged. -/
def mipStep (whole : ℚ) (state : List ℕ) (n : ℕ)
    (acc : MipAcc × (Table × Table)) (p : List ℕ × List ℕ) : MipAcc × (Table × Table) :=
  let tpm := acc.2.1
  let cm := acc.2.2
  if p.2 = [] then acc
  else
    let phiPartition :=
      if hasCrossConnection cm p.1 p.2 then
        |whole - distributionDistance (cutTpm tpm cm p.1 p.2 n) state n|
      else 0
    match acc.1.1 with
    | none => ((some phiPartition, some p), acc.2)
    | some m => if phiPartition < m then ((some phiPartition, some p), acc.2) else acc

/-- Embedding of `_find_mip`, with the network definition threaded through
the computation and returned alongside the result. -/
def findMipS (store : Table × Table) (state : List ℕ) (n : ℕ) :
    (ℚ × Option (List ℕ × List ℕ)) × (Table × Table) :=
  if n ≤ 1 then ((0, none), store)
  else
    let whole := distributionDistance store.1 state n
    let r := (bipartitionsList n).foldl (mipStep whole state n) (((none, none) : MipAcc), store)
    ((round6 (match r.1.1 with | none => 0 | some v => v), r.1.2), r.2)

/-- Result view of `_find_mip`: the rounded minimum partition score and the
minimising cut. -/
def findMip (tpm cm : Table) (state : List ℕ) (n : ℕ) : ℚ × Option (List ℕ × List ℕ) :=
  (findMipS (tpm, cm) state n).1

/-- Fields of the per-state result record that the claims inspect: the phi
value, the minimising cut and the diagnostic of a caught failure. -/
structure PhiResult where
  phi : ℚ
  mipCut : Option (List ℕ × List ℕ)
  diagnostic : Option String
deriving DecidableEq

/-- Translation of the try/except of `_compute_phi_for_network`: a
successful inner computation yields a result with the rounded phi value and
cut; a raised exception is caught and converted into a result with
`phi = 0.0` and the diagnostic attached. -/
def phiResultOf : Except String (ℚ × Option (List ℕ × List ℕ)) → PhiResult
  | Except.ok v => { phi := round6 v.1, mipCut := v.2, diagnostic := none }
  | Except.error e => { phi := 0, mipCut := none, diagnostic := some e }

/-- Fallible inner computation guarded by the try block.  The one source of
exceptions reachable from a well-formed network is a state vector shorter
than `n`, where `state[i]` raises `IndexError`; longer states are accepted
by Python and the excess entries are ignored. -/
def findMipE (tpm cm : Table) (state : List ℕ) (n : ℕ) :
    Except String (ℚ × Option (List ℕ × List ℕ)) :=
  if state.length < n then Except.error "IndexError: tuple index out of range"
  else Except.ok (findMip tpm cm state n)

/-- Per-state phi computation with the exception caught and converted, as
in `_compute_phi_for_network`. -/
def computePhiForNetwork (tpm cm : Table) (state : List ℕ) (n : ℕ) : PhiResult :=
  phiResultOf (findMipE tpm cm state n)

/-- Batch loop of `compute_all_subsystems` and `run_all_tests`: one result
per state, each state independent of the others. -/
def sweepStates (tpm cm : Table) (n : ℕ) (states : List (List ℕ)) : List PhiResult :=
  states.map (fun s => computePhiForNetwork tpm cm s n)

/-- Phi values across the full state space in the order of
`run_all_tests`: state of index `idx` is `bitsOf idx n`. -/
def statePhis (tpm cm : Table) (n : ℕ) : List ℚ :=
  (List.range (2 ^ n)).map (fun idx => (computePhiForNetwork tpm cm (bitsOf idx n) n).phi)

/-- Python `max` over a nonempty list of phi values. -/
def listMax : List ℚ → ℚ
  | [] => 0
  | x :: xs => xs.foldl max x

/-- Transition table of `build_xor_2`. -/
def xorTpm : Table := [[0, 0], [1, 1], [1, 1], [0, 0]]

/-- Transition table of `build_and_2`. -/
def andTpm : Table := [[0, 0], [0, 0], [0, 0], [1, 1]]

/-- Transition table of `build_or_2`. -/
def orTpm : Table := [[0, 0], [1, 1], [1, 1], [1, 1]]

/-- Connectivity matrix shared by the three canonical 2-node gates. -/
def fullCm2 : Table := [[1, 1], [1, 1]]

/-- Immutable network container built by `_make_network`: the function
wraps its three arguments into a record and performs no validation of any
kind. -/
structure NetworkModel where
  tpm : Table
  cm : Table
  labels : List String
deriving DecidableEq

/-- Embedding of `_make_network`. -/
def makeNetwork (tpm cm : Table) (labels : List String) : NetworkModel :=
  { tpm := tpm, cm := cm, labels := labels }

/-- Node count as every caller derives it: `tpm.shape[1]`, the row width. -/
def numNodes (net : NetworkModel) : ℕ := (net.tpm.getD 0 []).length

/-- Embedding of the composition at the end of `compute_hierarchical_phi`:
`(level1_avg * 0.6 + meta_max * 0.4) * (1 + 0.1 * np.log1p(total_nodes))`,
where the average is over the per-module maximum phi values and
`total_nodes` accumulates the node count of every level-1 module. -/
noncomputable def hierarchicalValue (level1MaxPhis : List ℝ) (level2Max : ℝ)
    (moduleNodeCounts : List ℕ) : ℝ :=
  let level1Avg := level1MaxPhis.sum / (level1MaxPhis.length : ℝ)
  let totalNodes := moduleNodeCounts.sum
  (level1Avg * 0.6 + level2Max * 0.4) * (1 + 0.1 * Real.log (1 + (totalNodes : ℝ)))

/-- The composition formula exactly as the specification words it:
`(L1avg * 0.6 + L2max * 0.4) * (1 + 0.1 * ln(1 + totalNodes))`. -/
noncomputable def hierarchicalFormula (l1avg l2max : ℝ) (totalNodes : ℕ) : ℝ :=
  (l1avg * 0.6 + l2max * 0.4) * (1 + 0.1 * Real.log (1 + (totalNodes : ℝ)))

/-- Well-formedness of a cut as `_find_mip` stores it: both sides nonempty,
strictly increasing, disjoint, and together covering the node set. -/
def ValidCut (n : ℕ) (p : List ℕ × List ℕ) : Prop :=
  p.1 ≠ [] ∧ p.2 ≠ [] ∧ List.Sorted (· < ·) p.1 ∧ List.Sorted (· < ·) p.2
  ∧ (∀ x ∈ p.1, x ∉ p.2) ∧ (∀ x, x < n → x ∈ p.1 ∨ x ∈ p.2)
  ∧ (∀ x ∈ p.1, x < n) ∧ (∀ x ∈ p.2, x < n)

/-- Shape of the cut that C10 asserts `_find_mip` returns. -/
def MipCutOk (tpm cm : Table) (state : List ℕ) (n : ℕ) : Prop :=
  ∃ A B, (findMip tpm cm state n).2 = some (A, B)
    ∧ A ≠ [] ∧ B ≠ [] ∧ List.Sorted (· < ·) A ∧ List.Sorted (· < ·) B
    ∧ (∀ x ∈ A, x ∉ B) ∧ (∀ x, x < n → x ∈ A ∨ x ∈ B)
    ∧ (∀ x ∈ A, x < n) ∧ (∀ x ∈ B, x < n)

/-- Specification-side reading of C2: the predecessors of `target` (per the
connectivity matrix) that lie on the other side of the bipartition. -/
def specCross (cm : Table) (partA : List ℕ) (n target : ℕ) : Finset ℕ :=
  (Finset.range n).filter (fun s => 0 < getEntry cm s target ∧ ¬ (s ∈ partA ↔ target ∈ partA))

/-- Specification-side reading of C2: the predecessors of `target` on the
same side of the bipartition. -/
def specSame (cm : Table) (partA : List ℕ) (n target : ℕ) : Finset ℕ :=
  (Finset.range n).filter (fun s => 0 < getEntry cm s target ∧ (s ∈ partA ↔ target ∈ partA))

/-- Specification-side reading of the averaging case of C2: the row states
obtained from the given row by assigning the cross-partition predecessor
bits in every possible way, i.e. the states that agree with the row on the
bit of every other node. -/
def agreeStates (cm : Table) (partA : List ℕ) (n target rowIdx : ℕ) : Finset ℕ :=
  (Finset.range (2 ^ n)).filter (fun r => ∀ i, i < n → i ∉ specCross cm partA n target →
    r / 2 ^ i % 2 = rowIdx / 2 ^ i % 2)

/-- Row index reached by one assignment of the cross-predecessor bits, as
the inner loop of `_partitioned_tpm` computes it. -/
def comboToState (cross : List ℕ) (rowIdx n combo : ℕ) : ℕ :=
  rowIndex (setCross (bitsOf rowIdx n) cross 0 combo) n

/-- Combination index recovered from the bits of a row state at the cross
positions; inverse of `comboToState` on the agreeing states. -/
def stateToCombo (cross : List ℕ) (r : ℕ) : ℕ :=
  ∑ k ∈ Finset.range cross.length, (r / 2 ^ (cross.getD k 0) % 2) * 2 ^ k

/-- Conclusion of claim C2, case by case: a target with no cross-partition
predecessor keeps its entry; one with cross- and same-partition
predecessors gets the arithmetic mean of its original entries over all
assignments of the cross-predecessor bits (the agreeing states, which
number exactly `2 ^ c`); one with only cross-partition predecessors gets
exactly 1/2. -/
def CutEntrySpec (tpm cm : Table) (partA partB : List ℕ) (n rowIdx target : ℕ) : Prop :=
  (specCross cm partA n target = ∅ →
    getEntry (cutTpm tpm cm partA partB n) rowIdx target = getEntry tpm rowIdx target)
  ∧ (specCross cm partA n target ≠ ∅ → specSame cm partA n target ≠ ∅ →
    getEntry (cutTpm tpm cm partA partB n) rowIdx target
      = (∑ r ∈ agreeStates cm partA n target rowIdx, getEntry tpm r target)
        / (2 : ℚ) ^ (specCross cm partA n target).card
    ∧ (agreeStates cm partA n target rowIdx).card = 2 ^ (specCross cm partA n target).card)
  ∧ (specCross cm partA n target ≠ ∅ → specSame cm partA n target = ∅ →
    getEntry (cutTpm tpm cm partA partB n) rowIdx target = 1 / 2)

/-- Conclusion of claim C9: the cut table keeps the shape `2 ^ n` rows of
length `n` and every entry stays in the unit interval. -/
def CutTpmOk (tpm cm : Table) (partA partB : List ℕ) (n : ℕ) : Prop :=
  (cutTpm tpm cm partA partB n).length = 2 ^ n
  ∧ (∀ row ∈ cutTpm tpm cm partA partB n, row.length = n)
  ∧ (∀ row ∈ cutTpm tpm cm partA partB n, ∀ x ∈ row, 0 ≤ x ∧ x ≤ 1)

end OrionPhi

namespace OrionPhi

/-- List sum over an initial segment as a finset sum. -/
theorem sum_range_map {M : Type*} [AddCommMonoid M] (f : ℕ → M) (n : ℕ) :
    ((List.range n).map f).sum = ∑ i ∈ Finset.range n, f i := by
  induction n with
  | zero => simp
  | succ n ih =>
      rw [List.range_succ, List.map_append, List.sum_append, Finset.sum_range_succ, ih]
      simp

theorem combinationsAux_length :
    ∀ (xs : List ℕ) (r : ℕ), (combinationsAux xs r).length = xs.length.choose r := by
  intro xs
  induction xs with
  | nil => intro r; cases r <;> simp [combinationsAux]
  | cons x xs ih =>
      intro r
      cases r with
      | zero => simp [combinationsAux]
      | succ r => simp [combinationsAux, ih, Nat.choose_succ_succ']

theorem combinationsAux_mem_length :
    ∀ (xs : List ℕ) (r : ℕ) (A : List ℕ), A ∈ combinationsAux xs r → A.length = r := by
  intro xs
  induction xs with
  | nil =>
      intro r A hA
      cases r with
      | zero => simp [combinationsAux] at hA; simp [hA]
      | succ r => simp [combinationsAux] at hA
  | cons x xs ih =>
      intro r A hA
      cases r with
      | zero => simp [combinationsAux] at hA; simp [hA]
      | succ r =>
          simp only [combinationsAux, List.mem_append, List.mem_map] at hA
          rcases hA with ⟨c, hc, rfl⟩ | hA
          · simp [ih r c hc]
          · exact ih _ _ hA

theorem combinationsAux_mem_sublist :
    ∀ (xs : List ℕ) (r : ℕ) (A : List ℕ), A ∈ combinationsAux xs r → A.Sublist xs := by
  intro xs
  induction xs with
  | nil =>
      intro r A hA
      cases r with
      | zero => simp [combinationsAux] at hA; simp [hA]
      | succ r => simp [combinationsAux] at hA
  | cons x xs ih =>
      intro r A hA
      cases r with
      | zero => simp [combinationsAux] at hA; simp [hA]
      | succ r =>
          simp only [combinationsAux, List.mem_append, List.mem_map] at hA
          rcases hA with ⟨c, hc, rfl⟩ | hA
          · exact List.Sublist.cons₂ x (ih r c hc)
          · exact List.Sublist.cons x (ih _ _ hA)

theorem mem_bipartitionsList {n : ℕ} {p : List ℕ × List ℕ} (hp : p ∈ bipartitionsList n) :
    ∃ k, k < n - 1 ∧ p.1 ∈ combinations (k + 1) (List.range n)
      ∧ p.2 = (List.range n).filter (fun x => decide (x ∉ p.1)) := by
  simp only [bipartitionsList, List.mem_flatten, List.mem_map, List.mem_range] at hp
  obtain ⟨l, ⟨k, hk, rfl⟩, hmem⟩ := hp
  simp only [List.mem_map] at hmem
  obtain ⟨A, hA, rfl⟩ := hmem
  exact ⟨k, hk, hA, rfl⟩

theorem bipartitions_snd_nonempty {n : ℕ} {p : List ℕ × List ℕ}
    (hp : p ∈ bipartitionsList n) : p.2 ≠ [] := by
  obtain ⟨k, hk, hA, hB⟩ := mem_bipartitionsList hp
  intro hnil
  rw [hB] at hnil
  rw [List.filter_eq_nil_iff] at hnil
  have hsub : List.range n ⊆ p.1 := by
    intro x hx
    have := hnil x hx
    simpa using this
  have hle : (List.range n).length ≤ p.1.length :=
    ((List.nodup_range n).subperm hsub).length_le
  rw [List.length_range, combinationsAux_mem_length _ _ _ hA] at hle
  omega

theorem bipartitionsList_length (n : ℕ) : (bipartitionsList n).length = 2 ^ n - 2 := by
  have hlen : (bipartitionsList n).length
      = ∑ k ∈ Finset.range (n - 1), n.choose (k + 1) := by
    simp only [bipartitionsList, List.length_flatten, List.map_map]
    have hfun : (List.length ∘ fun k =>
        (combinations (k + 1) (List.range n)).map (fun A =>
          (A, (List.range n).filter (fun x => decide (x ∉ A)))))
        = fun k => n.choose (k + 1) := by
      funext k
      simp [Function.comp, combinations, combinationsAux_length]
    rw [hfun, sum_range_map]
  rw [hlen]
  cases n with
  | zero => rfl
  | succ m =>
      have h := Nat.sum_range_choose (m + 1)
      rw [Finset.sum_range_succ'] at h
      rw [Finset.sum_range_succ] at h
      simp only [Nat.choose_self, Nat.choose_zero_right] at h
      simpa using by omega

/-- C1 counterexample: for the 2-node network the loop of `_find_mip`
evaluates two bipartitions, not `2 ^ (2 - 1) - 1 = 1`, because each
unordered split is enumerated once per orientation of side A. -/
theorem bipartition_count_claim_false_at_two_nodes :
    (evaluatedBipartitions 2).length = 2
    ∧ (evaluatedBipartitions 2).length ≠ 2 ^ (2 - 1) - 1 := by
  decide

/-- C1 (amended): a single MIP search call evaluates exactly `2 ^ n - 2`
bipartitions (ordered pairs of side A and its complement, so each of the
`2 ^ (n - 1) - 1` unordered splits is evaluated twice), enumerated by group
size `r = 1 .. n - 1` and, within each size, by lexicographic combination
order of side A. -/
theorem bipartition_enumeration_count (n : ℕ) :
    (evaluatedBipartitions n).length = 2 ^ n - 2 := by
  have hfilter : evaluatedBipartitions n = bipartitionsList n := by
    apply List.filter_eq_self.mpr
    intro p hp
    simpa using bipartitions_snd_nonempty hp
  rw [hfilter, bipartitionsList_length]

/-- C7 counterexample: `_make_network` accepts a transition table with
three rows of width two — the row count 3 differs from `2 ^ n = 4` — and
returns a usable network holding that table, so construction is not
rejected. -/
theorem construction_accepts_bad_row_count :
    (makeNetwork [[0, 0], [1, 1], [0, 0]] [[1, 1], [1, 1]] ["A", "B"]).tpm.length = 3
    ∧ 2 ^ numNodes (makeNetwork [[0, 0], [1, 1], [0, 0]] [[1, 1], [1, 1]] ["A", "B"]) = 4
    ∧ (makeNetwork [[0, 0], [1, 1], [0, 0]] [[1, 1], [1, 1]] ["A", "B"]).tpm
        = [[0, 0], [1, 1], [0, 0]] :=
  ⟨rfl, rfl, rfl⟩

/-- C7 (amended): construction performs no shape validation at all — it
unconditionally wraps its arguments, and a transition table whose row count
differs from `2 ^ n` is accepted, shape errors surfacing only later inside
the phi computation. -/
theorem make_network_never_rejects (tpm cm : Table) (labels : List String) :
    (makeNetwork tpm cm labels).tpm = tpm
    ∧ (makeNetwork tpm cm labels).cm = cm
    ∧ (makeNetwork tpm cm labels).labels = labels :=
  ⟨rfl, rfl, rfl⟩

/-- C3: the hierarchical composition returns exactly
`(mean of the level-1 maximum phi values * 0.6 + level-2 maximum * 0.4) *
(1 + 0.1 * ln(1 + totalNodes))` with `totalNodes` the sum of the module
node counts, and at `L1avg = 0.5`, `L2max = 0.3`, `totalNodes = 22` the
formula evaluates to `(0.5 * 0.6 + 0.3 * 0.4) * (1 + 0.1 * ln 23)`. -/
theorem hierarchical_phi_formula :
    (∀ (l1 : List ℝ) (l2 : ℝ) (counts : List ℕ),
      hierarchicalValue l1 l2 counts
        = hierarchicalFormula (l1.sum / (l1.length : ℝ)) l2 counts.sum)
    ∧ hierarchicalFormula 0.5 0.3 22 = (0.5 * 0.6 + 0.3 * 0.4) * (1 + 0.1 * Real.log 23) := by
  constructor
  · intro l1 l2 counts; rfl
  · show (0.5 * 0.6 + 0.3 * 0.4) * (1 + 0.1 * Real.log (1 + ((22 : ℕ) : ℝ))) = _
    norm_num

theorem mipStep_preserves_store (w : ℚ) (s : List ℕ) (n : ℕ)
    (acc : MipAcc × (Table × Table)) (p : List ℕ × List ℕ) :
    (mipStep w s n acc p).2 = acc.2 := by
  unfold mipStep
  dsimp only
  split
  · rfl
  · split
    · rfl
    · split <;> split <;> rfl

theorem foldl_mipStep_store (w : ℚ) (s : List ℕ) (n : ℕ) :
    ∀ (l : List (List ℕ × List ℕ)) (acc : MipAcc × (Table × Table)),
      (l.foldl (mipStep w s n) acc).2 = acc.2 := by
  intro l
  induction l with
  | nil => intro acc; rfl
  | cons p rest ih => intro acc; rw [List.foldl_cons, ih, mipStep_preserves_store]

/-- C8: a phi computation leaves the network definition unchanged — the
transition table and connectivity matrix threaded through `_find_mip` come
back identical, the cut table being built on a fresh copy. -/
theorem phi_preserves_network_definition (store : Table × Table) (state : List ℕ) (n : ℕ) :
    (findMipS store state n).2 = store := by
  unfold findMipS
  split
  · rfl
  · exact foldl_mipStep_store _ _ _ _ _

/-- C4: an exception raised inside the per-state phi computation is caught
and converted into a result with `phi = 0` and the diagnostic attached, and
the enclosing sweep still computes every state of the batch. -/
theorem computation_fault_isolated (tpm cm : Table) (n : ℕ) (states : List (List ℕ))
    (s : List ℕ) (e : String)
    (h : findMipE tpm cm s n = Except.error e) :
    computePhiForNetwork tpm cm s n = { phi := 0, mipCut := none, diagnostic := some e }
    ∧ (sweepStates tpm cm n states).length = states.length
    ∧ ∀ i, i < states.length →
        (sweepStates tpm cm n states).getD i { phi := 0, mipCut := none, diagnostic := none }
          = computePhiForNetwork tpm cm (states.getD i []) n := by
  refine ⟨?_, ?_, ?_⟩
  · simp [computePhiForNetwork, h, phiResultOf]
  · simp [sweepStates]
  · intro i hi
    have hi' : i < (sweepStates tpm cm n states).length := by simpa [sweepStates]
    rw [List.getD_eq_getElem _ _ hi', List.getD_eq_getElem _ _ hi]
    simp [sweepStates]

/-- C4 witness: a state vector of length 1 for a 2-node network faults; the
fault is converted and the two-state sweep still yields two results. -/
theorem computation_fault_isolated_witness :
    findMipE xorTpm fullCm2 [1] 2 = Except.error "IndexError: tuple index out of range"
    ∧ (computePhiForNetwork xorTpm fullCm2 [1] 2
          = { phi := 0, mipCut := none,
              diagnostic := some "IndexError: tuple index out of range" }
        ∧ (sweepStates xorTpm fullCm2 2 [[1, 1], [1]]).length = [[1, 1], [1]].length
        ∧ ∀ i, i < [[1, 1], [1]].length →
            (sweepStates xorTpm fullCm2 2 [[1, 1], [1]]).getD i
                { phi := 0, mipCut := none, diagnostic := none }
              = computePhiForNetwork xorTpm fullCm2 ([[1, 1], [1]].getD i []) 2) :=
  ⟨rfl, computation_fault_isolated xorTpm fullCm2 2 [[1, 1], [1]] [1]
    "IndexError: tuple index out of range" rfl⟩

theorem bipartitions_validCut {n : ℕ} {p : List ℕ × List ℕ}
    (hp : p ∈ bipartitionsList n) : ValidCut n p := by
  obtain ⟨k, hk, hA, hB⟩ := mem_bipartitionsList hp
  have hlenA := combinationsAux_mem_length _ _ _ hA
  have hsubA := combinationsAux_mem_sublist _ _ _ hA
  have hAlt : ∀ x ∈ p.1, x < n := by
    intro x hx
    have := hsubA.subset hx
    simpa using this
  refine ⟨?_, bipartitions_snd_nonempty hp, ?_, ?_, ?_, ?_, hAlt, ?_⟩
  · intro hnil; rw [hnil] at hlenA; simp at hlenA
  · exact List.Pairwise.sublist hsubA (List.pairwise_lt_range n)
  · rw [hB]; exact List.Pairwise.filter _ (List.pairwise_lt_range n)
  · intro x hx hxB
    rw [hB, List.mem_filter] at hxB
    have := hxB.2
    simp at this
    exact this hx
  · intro x hxn
    by_cases hmem : x ∈ p.1
    · exact Or.inl hmem
    · refine Or.inr ?_
      rw [hB, List.mem_filter]
      simp [List.mem_range, hxn, hmem]
  · intro x hx
    rw [hB, List.mem_filter] at hx
    simpa using hx.1

theorem mipStep_good {n : ℕ} (w : ℚ) (state : List ℕ)
    {acc : MipAcc × (Table × Table)} {p : List ℕ × List ℕ} (hp : ValidCut n p)
    (hacc : ∃ q, acc.1.2 = some q ∧ ValidCut n q) :
    ∃ q, (mipStep w state n acc p).1.2 = some q ∧ ValidCut n q := by
  unfold mipStep
  dsimp only
  split
  · exact hacc
  · split
    · exact ⟨p, rfl, hp⟩
    · split <;> split
      · exact ⟨p, rfl, hp⟩
      · exact hacc
      · exact ⟨p, rfl, hp⟩
      · exact hacc

theorem foldl_mipStep_good {n : ℕ} (w : ℚ) (state : List ℕ) :
    ∀ (l : List (List ℕ × List ℕ)) (acc : MipAcc × (Table × Table)),
      (∀ p ∈ l, ValidCut n p) →
      (∃ q, acc.1.2 = some q ∧ ValidCut n q) →
      ∃ q, (l.foldl (mipStep w state n) acc).1.2 = some q ∧ ValidCut n q := by
  intro l
  induction l with
  | nil => intro acc _ hacc; exact hacc
  | cons p rest ih =>
      intro acc hl hacc
      rw [List.foldl_cons]
      exact ih _ (fun q hq => hl q (List.mem_cons_of_mem p hq))
        (mipStep_good w state (hl p (List.mem_cons_self p rest)) hacc)

theorem foldl_mipStep_some {n : ℕ} (w : ℚ) (state : List ℕ)
    (l : List (List ℕ × List ℕ)) (store : Table × Table)
    (hl : ∀ p ∈ l, ValidCut n p) (hne : l ≠ []) :
    ∃ q, (l.foldl (mipStep w state n) (((none, none) : MipAcc), store)).1.2 = some q
      ∧ ValidCut n q := by
  cases l with
  | nil => exact absurd rfl hne
  | cons p rest =>
      rw [List.foldl_cons]
      have hp := hl p (List.mem_cons_self p rest)
      refine foldl_mipStep_good w state rest _
        (fun q hq => hl q (List.mem_cons_of_mem p hq)) ?_
      unfold mipStep
      dsimp only
      rw [if_neg hp.2.1]
      exact ⟨p, rfl, hp⟩

/-- C10: for every network with at least two nodes whose transition-table
entries lie in the unit interval and every length-n state, the MIP search
returns a non-null best cut, and that cut is a pair of disjoint, nonempty,
sorted subsets of the node set whose union is the full node set. -/
theorem find_mip_returns_valid_cut (tpm cm : Table) (state : List ℕ) (n : ℕ)
    (hn : 2 ≤ n)
    (_hentries : ∀ row ∈ tpm, ∀ x ∈ row, 0 ≤ x ∧ x ≤ 1)
    (_hstate : state.length = n) :
    MipCutOk tpm cm state n := by
  have hn1 : ¬ n ≤ 1 := by omega
  have hne : bipartitionsList n ≠ [] := by
    intro hnil
    have hlen := bipartitionsList_length n
    rw [hnil] at hlen
    have h4 : 4 ≤ 2 ^ n := by
      calc (4 : ℕ) = 2 ^ 2 := rfl
        _ ≤ 2 ^ n := Nat.pow_le_pow_right (by norm_num) hn
    simp at hlen
    omega
  obtain ⟨q, hq, hvalid⟩ := foldl_mipStep_some (distributionDistance tpm state n) state
    (bipartitionsList n) (tpm, cm) (fun p hp => bipartitions_validCut hp) hne
  obtain ⟨h1, h2, h3, h4, h5, h6, h7, h8⟩ := hvalid
  refine ⟨q.1, q.2, ?_, h1, h2, h3, h4, h5, h6, h7, h8⟩
  unfold findMip findMipS
  rw [if_neg hn1]
  dsimp only
  rw [hq]

/-- C10 witness: the XOR network at state (1,1). -/
theorem find_mip_returns_valid_cut_witness :
    ((2 : ℕ) ≤ 2 ∧ (∀ row ∈ xorTpm, ∀ x ∈ row, 0 ≤ x ∧ x ≤ 1)
        ∧ ([1, 1] : List ℕ).length = 2)
    ∧ MipCutOk xorTpm fullCm2 [1, 1] 2 :=
  ⟨⟨le_refl 2, by decide, rfl⟩,
    find_mip_returns_valid_cut xorTpm fullCm2 [1, 1] 2 (by decide) (by decide) rfl⟩

theorem sum_bits_lt (n : ℕ) (b : ℕ → ℕ) (hb : ∀ i, i < n → b i ≤ 1) :
    (∑ i ∈ Finset.range n, b i * 2 ^ i) < 2 ^ n := by
  induction n with
  | zero => simp
  | succ n ih =>
      rw [Finset.sum_range_succ]
      have h1 := ih (fun i hi => hb i (by omega))
      have h2 : b n * 2 ^ n ≤ 2 ^ n := by
        calc b n * 2 ^ n ≤ 1 * 2 ^ n := Nat.mul_le_mul_right _ (hb n (Nat.lt_succ_self n))
          _ = 2 ^ n := one_mul _
      have h3 : 2 ^ (n + 1) = 2 ^ n + 2 ^ n := by ring
      omega

theorem bits_of_sum :
    ∀ (n : ℕ) (b : ℕ → ℕ), (∀ i, i < n → b i ≤ 1) → ∀ j, j < n →
      (∑ i ∈ Finset.range n, b i * 2 ^ i) / 2 ^ j % 2 = b j := by
  intro n
  induction n with
  | zero => intro b _ j hj; omega
  | succ n ih =>
      intro b hb j hj
      have hsum : (∑ i ∈ Finset.range (n + 1), b i * 2 ^ i)
          = 2 * (∑ i ∈ Finset.range n, b (i + 1) * 2 ^ i) + b 0 := by
        rw [Finset.sum_range_succ', Finset.mul_sum]
        congr 1
        · exact Finset.sum_congr rfl (fun i _ => by ring)
        · simp
      rw [hsum]
      cases j with
      | zero =>
          have hb0 := hb 0 (by omega)
          simp only [pow_zero, Nat.div_one]
          omega
      | succ j =>
          have hdiv : (2 * (∑ i ∈ Finset.range n, b (i + 1) * 2 ^ i) + b 0) / 2 ^ (j + 1)
              = (∑ i ∈ Finset.range n, b (i + 1) * 2 ^ i) / 2 ^ j := by
            rw [show (2 : ℕ) ^ (j + 1) = 2 * 2 ^ j from by ring, ← Nat.div_div_eq_div_mul]
            congr 1
            have hb0 := hb 0 (by omega)
            rw [Nat.mul_add_div (by omega)]
            omega
          rw [hdiv]
          exact ih (fun i => b (i + 1)) (fun i hi => hb (i + 1) (by omega)) j (by omega)

theorem sum_bits_recompose :
    ∀ (n x : ℕ), x < 2 ^ n → (∑ i ∈ Finset.range n, (x / 2 ^ i % 2) * 2 ^ i) = x := by
  intro n
  induction n with
  | zero => intro x hx; simp at hx ⊢; omega
  | succ n ih =>
      intro x hx
      rw [Finset.sum_range_succ']
      have h1 : ∀ i : ℕ, x / 2 ^ (i + 1) % 2 * 2 ^ (i + 1)
          = 2 * ((x / 2) / 2 ^ i % 2 * 2 ^ i) := by
        intro i
        rw [pow_succ', ← Nat.div_div_eq_div_mul]
        ring
      have h2 : (∑ i ∈ Finset.range n, x / 2 ^ (i + 1) % 2 * 2 ^ (i + 1))
          = 2 * ∑ i ∈ Finset.range n, (x / 2) / 2 ^ i % 2 * 2 ^ i := by
        rw [Finset.mul_sum]
        exact Finset.sum_congr rfl (fun i _ => h1 i)
      have hx2 : x / 2 < 2 ^ n := by
        have : 2 ^ (n + 1) = 2 * 2 ^ n := by ring
        omega
      rw [h2, ih (x / 2) hx2]
      simp only [pow_zero, Nat.div_one, mul_one]
      omega

theorem bitsOf_length (x n : ℕ) : (bitsOf x n).length = n := by simp [bitsOf]

theorem bitsOf_getD (x n i : ℕ) (hi : i < n) : (bitsOf x n).getD i 0 = x / 2 ^ i % 2 := by
  rw [List.getD_eq_getElem _ _ (by simpa [bitsOf] using hi)]
  simp [bitsOf]

theorem bitsOf_getD_le (x n i : ℕ) : (bitsOf x n).getD i 0 ≤ 1 := by
  by_cases hi : i < n
  · rw [bitsOf_getD _ _ _ hi]; omega
  · rw [List.getD_eq_default _ _ (by simp [bitsOf]; omega)]; omega

theorem rowIndex_eq_sum (state : List ℕ) (n : ℕ) :
    rowIndex state n = ∑ i ∈ Finset.range n, state.getD i 0 * 2 ^ i := by
  simp [rowIndex, sum_range_map]

theorem getD_set_ne (l : List ℕ) (j i v : ℕ) (h : j ≠ i) :
    (l.set j v).getD i 0 = l.getD i 0 := by
  by_cases hi : i < l.length
  · rw [List.getD_eq_getElem _ _ (by simpa using hi), List.getD_eq_getElem _ _ hi]
    exact List.getElem_set_ne h _
  · rw [List.getD_eq_default _ _ (by simpa using by omega),
      List.getD_eq_default _ _ (by omega)]

theorem getD_set_self (l : List ℕ) (j v : ℕ) (h : j < l.length) :
    (l.set j v).getD j 0 = v := by
  rw [List.getD_eq_getElem _ _ (by simpa using h)]
  exact List.getElem_set_self _

theorem getD_set_le (l : List ℕ) (j v i : ℕ) (hv : v ≤ 1) (hl : ∀ m, l.getD m 0 ≤ 1) :
    (l.set j v).getD i 0 ≤ 1 := by
  by_cases hij : j = i
  · subst hij
    by_cases hlen : j < l.length
    · rw [getD_set_self _ _ _ hlen]; exact hv
    · rw [List.getD_eq_default _ _ (by simpa using by omega)]; omega
  · rw [getD_set_ne _ _ _ _ hij]; exact hl i

theorem setCross_length :
    ∀ (cross : List ℕ) (st : List ℕ) (ci combo : ℕ),
      (setCross st cross ci combo).length = st.length := by
  intro cross
  induction cross with
  | nil => intro st ci combo; rfl
  | cons cs rest ih =>
      intro st ci combo
      simp only [setCross]
      rw [ih, List.length_set]

theorem setCross_getD_not_mem :
    ∀ (cross : List ℕ) (st : List ℕ) (ci combo i : ℕ), i ∉ cross →
      (setCross st cross ci combo).getD i 0 = st.getD i 0 := by
  intro cross
  induction cross with
  | nil => intro st ci combo i _; rfl
  | cons cs rest ih =>
      intro st ci combo i hi
      simp only [setCross]
      rw [ih _ _ _ _ (fun h => hi (List.mem_cons_of_mem _ h))]
      exact getD_set_ne _ _ _ _ (fun h => hi (h ▸ List.mem_cons_self _ _))

theorem setCross_getD_at :
    ∀ (cross : List ℕ) (st : List ℕ) (ci combo k : ℕ) (hk : k < cross.length),
      cross.Nodup → (∀ c ∈ cross, c < st.length) →
      (setCross st cross ci combo).getD (cross.get ⟨k, hk⟩) 0 = combo / 2 ^ (ci + k) % 2 := by
  intro cross
  induction cross with
  | nil => intro st ci combo k hk; simp at hk
  | cons cs rest ih =>
      intro st ci combo k hk hnd hlt
      cases k with
      | zero =>
          simp only [setCross, List.get]
          rw [setCross_getD_not_mem rest _ _ _ cs (List.nodup_cons.mp hnd).1]
          rw [getD_set_self _ _ _ (hlt cs (List.mem_cons_self _ _))]
          simp
      | succ k =>
          simp only [setCross, List.get]
          have hres := ih (st.set cs (combo / 2 ^ ci % 2)) (ci + 1) combo k
            (by simpa using hk) (List.nodup_cons.mp hnd).2
            (fun c hc => by rw [List.length_set]; exact hlt c (List.mem_cons_of_mem _ hc))
          rw [hres, show ci + 1 + k = ci + (k + 1) from by omega]

theorem setCross_getD_le :
    ∀ (cross : List ℕ) (st : List ℕ) (ci combo i : ℕ), (∀ m, st.getD m 0 ≤ 1) →
      (setCross st cross ci combo).getD i 0 ≤ 1 := by
  intro cross
  induction cross with
  | nil => intro st ci combo i hst; exact hst i
  | cons cs rest ih =>
      intro st ci combo i hst
      simp only [setCross]
      exact ih _ _ _ _ (fun m => getD_set_le _ _ _ _ (by omega) hst)

theorem mem_crossSources {cm : Table} {partA : List ℕ} {n target s : ℕ} :
    s ∈ crossSources cm partA n target ↔ s ∈ specCross cm partA n target := by
  simp only [crossSources, predSources, specCross, List.mem_filter, Finset.mem_filter,
    List.mem_range, Finset.mem_range, decide_eq_true_eq]
  tauto

theorem mem_sameSources {cm : Table} {partA : List ℕ} {n target s : ℕ} :
    s ∈ sameSources cm partA n target ↔ s ∈ specSame cm partA n target := by
  simp only [sameSources, predSources, crossSources, specSame, List.mem_filter,
    Finset.mem_filter, List.mem_range, Finset.mem_range, decide_eq_true_eq]
  tauto

theorem crossSources_nodup (cm : Table) (partA : List ℕ) (n target : ℕ) :
    (crossSources cm partA n target).Nodup :=
  List.Nodup.filter _ (List.Nodup.filter _ (List.nodup_range n))

theorem crossSources_lt {cm : Table} {partA : List ℕ} {n target : ℕ} :
    ∀ s ∈ crossSources cm partA n target, s < n := by
  intro s hs
  have h := mem_crossSources.mp hs
  simp only [specCross, Finset.mem_filter, Finset.mem_range] at h
  exact h.1

theorem crossSources_length_card (cm : Table) (partA : List ℕ) (n target : ℕ) :
    (crossSources cm partA n target).length = (specCross cm partA n target).card := by
  rw [← List.toFinset_card_of_nodup (crossSources_nodup cm partA n target)]
  congr 1
  apply Finset.ext
  intro s
  rw [List.mem_toFinset]
  exact mem_crossSources

theorem crossSources_nil_iff {cm : Table} {partA : List ℕ} {n target : ℕ} :
    crossSources cm partA n target = [] ↔ specCross cm partA n target = ∅ := by
  rw [List.eq_nil_iff_forall_not_mem, Finset.eq_empty_iff_forall_not_mem]
  exact forall_congr' (fun s => not_congr mem_crossSources)

theorem sameSources_nil_iff {cm : Table} {partA : List ℕ} {n target : ℕ} :
    sameSources cm partA n target = [] ↔ specSame cm partA n target = ∅ := by
  rw [List.eq_nil_iff_forall_not_mem, Finset.eq_empty_iff_forall_not_mem]
  exact forall_congr' (fun s => not_congr mem_sameSources)

theorem comboToState_lt (cross : List ℕ) (rowIdx n combo : ℕ) :
    comboToState cross rowIdx n combo < 2 ^ n := by
  rw [comboToState, rowIndex_eq_sum]
  exact sum_bits_lt n _
    (fun i _ => setCross_getD_le cross _ 0 combo i (fun m => bitsOf_getD_le rowIdx n m))

theorem comboToState_bit (cross : List ℕ) (rowIdx n combo i : ℕ) (hi : i < n) :
    comboToState cross rowIdx n combo / 2 ^ i % 2
      = (setCross (bitsOf rowIdx n) cross 0 combo).getD i 0 := by
  rw [comboToState, rowIndex_eq_sum]
  exact bits_of_sum n _
    (fun j _ => setCross_getD_le cross _ 0 combo j (fun m => bitsOf_getD_le rowIdx n m)) i hi

theorem getD_mapIdx {α β : Type} (l : List α) (f : ℕ → α → β) (i : ℕ) (d : β)
    (hi : i < l.length) :
    (l.mapIdx f).getD i d = f i (l.get ⟨i, hi⟩) := by
  rw [List.getD_eq_getElem _ _ (by simpa [List.length_mapIdx] using hi), List.getElem_mapIdx]
  simp [List.get_eq_getElem]

theorem getEntry_cutTpm (tpm cm : Table) (partA partB : List ℕ) (n rowIdx target : ℕ)
    (hlen : tpm.length = 2 ^ n) (hrows : ∀ row ∈ tpm, row.length = n)
    (hr : rowIdx < 2 ^ n) (ht : target < n) :
    getEntry (cutTpm tpm cm partA partB n) rowIdx target
      = cutEntry tpm cm partA n rowIdx target (getEntry tpm rowIdx target) := by
  have hrIdx : rowIdx < tpm.length := by rw [hlen]; exact hr
  have hrowlen : (tpm.get ⟨rowIdx, hrIdx⟩).length = n := by
    rw [List.get_eq_getElem]
    exact hrows _ (List.getElem_mem hrIdx)
  simp only [getEntry, cutTpm]
  rw [getD_mapIdx tpm _ rowIdx [] hrIdx]
  rw [getD_mapIdx _ _ target 0 (by rw [hrowlen]; exact ht)]
  rw [List.getD_eq_getElem tpm [] hrIdx]
  rw [List.getD_eq_getElem _ 0 (show target < tpm[rowIdx].length from by
    rw [← List.get_eq_getElem tpm ⟨rowIdx, hrIdx⟩, hrowlen]; exact ht)]
  simp [List.get_eq_getElem]

theorem comboToState_mem_agree (cm : Table) (partA : List ℕ) (n target rowIdx combo : ℕ) :
    comboToState (crossSources cm partA n target) rowIdx n combo
      ∈ agreeStates cm partA n target rowIdx := by
  rw [agreeStates, Finset.mem_filter, Finset.mem_range]
  refine ⟨comboToState_lt _ _ _ _, ?_⟩
  intro i hi hnotin
  rw [comboToState_bit _ rowIdx n combo i hi]
  rw [setCross_getD_not_mem _ _ 0 combo i (fun hmem => hnotin (mem_crossSources.mp hmem))]
  exact bitsOf_getD rowIdx n i hi

theorem stateToCombo_lt (cross : List ℕ) (r : ℕ) :
    stateToCombo cross r < 2 ^ cross.length := by
  rw [stateToCombo]
  exact sum_bits_lt _ _ (fun k _ => by omega)

theorem stateToCombo_bit (cross : List ℕ) (r k : ℕ) (hk : k < cross.length) :
    stateToCombo cross r / 2 ^ k % 2 = r / 2 ^ (cross.getD k 0) % 2 := by
  rw [stateToCombo]
  exact bits_of_sum _ _ (fun j _ => by omega) k hk

theorem stateToCombo_comboToState (cm : Table) (partA : List ℕ) (n target rowIdx combo : ℕ)
    (hcombo : combo < 2 ^ (crossSources cm partA n target).length) :
    stateToCombo (crossSources cm partA n target)
      (comboToState (crossSources cm partA n target) rowIdx n combo) = combo := by
  rw [stateToCombo]
  have hterm : ∀ k ∈ Finset.range (crossSources cm partA n target).length,
      (comboToState (crossSources cm partA n target) rowIdx n combo
          / 2 ^ ((crossSources cm partA n target).getD k 0) % 2) * 2 ^ k
        = (combo / 2 ^ k % 2) * 2 ^ k := by
    intro k hk
    rw [Finset.mem_range] at hk
    have hmemk : (crossSources cm partA n target).getD k 0 ∈ crossSources cm partA n target := by
      rw [List.getD_eq_getElem _ _ hk]
      exact List.getElem_mem hk
    have hklt := crossSources_lt _ hmemk
    rw [comboToState_bit _ rowIdx n combo _ hklt]
    have hat := setCross_getD_at (crossSources cm partA n target) (bitsOf rowIdx n) 0 combo k hk
      (crossSources_nodup cm partA n target)
      (fun c hc => by rw [bitsOf_length]; exact crossSources_lt c hc)
    rw [show (crossSources cm partA n target).getD k 0
        = (crossSources cm partA n target).get ⟨k, hk⟩ from by
      rw [List.getD_eq_getElem _ _ hk, List.get_eq_getElem]]
    rw [hat, Nat.zero_add]
  rw [Finset.sum_congr rfl hterm]
  exact sum_bits_recompose _ combo hcombo

theorem comboToState_stateToCombo (cm : Table) (partA : List ℕ) (n target rowIdx r : ℕ)
    (hragree : r ∈ agreeStates cm partA n target rowIdx) :
    comboToState (crossSources cm partA n target) rowIdx n
      (stateToCombo (crossSources cm partA n target) r) = r := by
  rw [agreeStates, Finset.mem_filter, Finset.mem_range] at hragree
  obtain ⟨hrlt, hagr⟩ := hragree
  rw [comboToState, rowIndex_eq_sum]
  have hterm : ∀ i ∈ Finset.range n,
      (setCross (bitsOf rowIdx n) (crossSources cm partA n target) 0
          (stateToCombo (crossSources cm partA n target) r)).getD i 0 * 2 ^ i
        = (r / 2 ^ i % 2) * 2 ^ i := by
    intro i hi
    rw [Finset.mem_range] at hi
    by_cases hmem : i ∈ crossSources cm partA n target
    · obtain ⟨k, hkget⟩ := List.mem_iff_get.mp hmem
      have hat := setCross_getD_at (crossSources cm partA n target) (bitsOf rowIdx n) 0
        (stateToCombo (crossSources cm partA n target) r) k.1 k.2
        (crossSources_nodup cm partA n target)
        (fun c hc => by rw [bitsOf_length]; exact crossSources_lt c hc)
      rw [show (⟨k.1, k.2⟩ : Fin (crossSources cm partA n target).length) = k from rfl] at hat
      rw [hkget] at hat
      rw [hat, Nat.zero_add]
      rw [stateToCombo_bit _ r k.1 k.2]
      rw [show (crossSources cm partA n target).getD k.1 0 = i from by
        rw [List.getD_eq_getElem _ _ k.2, ← List.get_eq_getElem, hkget]]
    · rw [setCross_getD_not_mem _ _ 0 _ i hmem, bitsOf_getD rowIdx n i hi]
      rw [hagr i hi (fun hspec => hmem (mem_crossSources.mpr hspec))]
  rw [Finset.sum_congr rfl hterm]
  exact sum_bits_recompose n r hrlt

theorem agreeStates_card (cm : Table) (partA : List ℕ) (n target rowIdx : ℕ) :
    (agreeStates cm partA n target rowIdx).card
      = 2 ^ (specCross cm partA n target).card := by
  rw [← crossSources_length_card]
  rw [← Finset.card_range (2 ^ (crossSources cm partA n target).length)]
  exact (Finset.card_nbij' (comboToState (crossSources cm partA n target) rowIdx n)
    (stateToCombo (crossSources cm partA n target))
    (fun combo _ => comboToState_mem_agree cm partA n target rowIdx combo)
    (fun r _ => Finset.mem_range.mpr (stateToCombo_lt _ r))
    (fun combo hcombo =>
      stateToCombo_comboToState cm partA n target rowIdx combo (Finset.mem_range.mp hcombo))
    (fun r hragree => comboToState_stateToCombo cm partA n target rowIdx r hragree)).symm

theorem cross_assignments_sum (tpm cm : Table) (partA : List ℕ) (n target rowIdx : ℕ) :
    ((List.range (2 ^ (crossSources cm partA n target).length)).map (fun combo =>
      getEntry tpm (rowIndex (setCross (bitsOf rowIdx n)
        (crossSources cm partA n target) 0 combo) n) target)).sum
    = ∑ r ∈ agreeStates cm partA n target rowIdx, getEntry tpm r target := by
  rw [sum_range_map]
  exact Finset.sum_nbij' (comboToState (crossSources cm partA n target) rowIdx n)
    (stateToCombo (crossSources cm partA n target))
    (fun combo _ => comboToState_mem_agree cm partA n target rowIdx combo)
    (fun r _ => Finset.mem_range.mpr (stateToCombo_lt _ r))
    (fun combo hcombo =>
      stateToCombo_comboToState cm partA n target rowIdx combo (Finset.mem_range.mp hcombo))
    (fun r hragree => comboToState_stateToCombo cm partA n target rowIdx r hragree)
    (fun combo _ => rfl)

/-- C2: the entry of the cut table for a target node is the original entry
when no cross-partition predecessor exists, exactly 1/2 when cross-partition
predecessors exist but no same-partition one, and otherwise the arithmetic
mean of the original entries over the `2 ^ c` assignments of the `c`
cross-partition predecessor bits with every other bit held at the row
value. -/
theorem cut_entry_cases (tpm cm : Table) (partA partB : List ℕ) (n rowIdx target : ℕ)
    (hlen : tpm.length = 2 ^ n)
    (hrows : ∀ row ∈ tpm, row.length = n)
    (hr : rowIdx < 2 ^ n)
    (ht : target < n) :
    CutEntrySpec tpm cm partA partB n rowIdx target := by
  have hkey := getEntry_cutTpm tpm cm partA partB n rowIdx target hlen hrows hr ht
  unfold CutEntrySpec
  refine ⟨?_, ?_, ?_⟩
  · intro hempty
    rw [hkey]
    simp only [cutEntry]
    rw [if_pos (crossSources_nil_iff.mpr hempty)]
  · intro hne hsame
    rw [hkey]
    simp only [cutEntry]
    rw [if_neg (fun h => hne (crossSources_nil_iff.mp h))]
    rw [if_neg (fun h => hsame (sameSources_nil_iff.mp h))]
    refine ⟨?_, agreeStates_card cm partA n target rowIdx⟩
    rw [cross_assignments_sum tpm cm partA n target rowIdx]
    rw [crossSources_length_card cm partA n target]
  · intro hne hsame
    rw [hkey]
    simp only [cutEntry]
    rw [if_neg (fun h => hne (crossSources_nil_iff.mp h))]
    rw [if_pos (sameSources_nil_iff.mpr hsame)]

/-- C2 witness: the XOR network, bipartition side A = (0,), row 3, target
node 0. -/
theorem cut_entry_cases_witness :
    (xorTpm.length = 2 ^ 2 ∧ (∀ row ∈ xorTpm, row.length = 2)
        ∧ 3 < 2 ^ 2 ∧ 0 < 2)
    ∧ CutEntrySpec xorTpm fullCm2 [0] [1] 2 3 0 :=
  ⟨⟨rfl, by decide, by decide, by decide⟩,
    cut_entry_cases xorTpm fullCm2 [0] [1] 2 3 0 rfl (by decide) (by decide) (by decide)⟩

theorem getEntry_bounds (tpm : Table)
    (hentries : ∀ row ∈ tpm, ∀ x ∈ row, 0 ≤ x ∧ x ≤ 1) (r c : ℕ) :
    0 ≤ getEntry tpm r c ∧ getEntry tpm r c ≤ 1 := by
  unfold getEntry
  by_cases hrow : r < tpm.length
  · rw [List.getD_eq_getElem _ _ hrow]
    by_cases hc : c < tpm[r].length
    · rw [List.getD_eq_getElem _ _ hc]
      exact hentries _ (List.getElem_mem hrow) _ (List.getElem_mem hc)
    · rw [List.getD_eq_default _ _ (by omega)]
      norm_num
  · rw [List.getD_eq_default tpm [] (by omega)]
    simp

theorem sum_bounds_unit (l : List ℚ) (h : ∀ x ∈ l, 0 ≤ x ∧ x ≤ 1) :
    0 ≤ l.sum ∧ l.sum ≤ (l.length : ℚ) := by
  induction l with
  | nil => simp
  | cons a l ih =>
      have ha := h a (List.mem_cons_self _ _)
      have hl := ih (fun x hx => h x (List.mem_cons_of_mem _ hx))
      simp only [List.sum_cons, List.length_cons]
      push_cast
      constructor
      · linarith [ha.1, hl.1]
      · linarith [ha.2, hl.2]

theorem cutEntry_bounds (tpm cm : Table) (partA : List ℕ) (n rowIdx target : ℕ) (orig : ℚ)
    (horig : 0 ≤ orig ∧ orig ≤ 1)
    (hentries : ∀ row ∈ tpm, ∀ x ∈ row, 0 ≤ x ∧ x ≤ 1) :
    0 ≤ cutEntry tpm cm partA n rowIdx target orig
      ∧ cutEntry tpm cm partA n rowIdx target orig ≤ 1 := by
  simp only [cutEntry]
  split
  · exact horig
  · split
    · norm_num
    · have hb := sum_bounds_unit
        ((List.range (2 ^ (crossSources cm partA n target).length)).map (fun combo =>
          getEntry tpm (rowIndex (setCross (bitsOf rowIdx n)
            (crossSources cm partA n target) 0 combo) n) target))
        (by
          intro x hx
          simp only [List.mem_map] at hx
          obtain ⟨combo, _, rfl⟩ := hx
          exact getEntry_bounds tpm hentries _ _)
      have hlen : (((List.range (2 ^ (crossSources cm partA n target).length)).map
          (fun combo => getEntry tpm (rowIndex (setCross (bitsOf rowIdx n)
            (crossSources cm partA n target) 0 combo) n) target)).length : ℚ)
          = (2 : ℚ) ^ (crossSources cm partA n target).length := by
        rw [List.length_map, List.length_range]
        push_cast
        ring
      have hpow : (0 : ℚ) < (2 : ℚ) ^ (crossSources cm partA n target).length := by positivity
      constructor
      · exact div_nonneg hb.1 (le_of_lt hpow)
      · rw [div_le_one hpow]
        calc ((List.range (2 ^ (crossSources cm partA n target).length)).map
              (fun combo => getEntry tpm (rowIndex (setCross (bitsOf rowIdx n)
                (crossSources cm partA n target) 0 combo) n) target)).sum
            ≤ _ := hb.2
          _ = _ := hlen

/-- C9: for a well-formed transition table with entries in the unit
interval, the cut table keeps the same `2 ^ n` by `n` shape and every entry
stays in the unit interval. -/
theorem cut_tpm_shape_and_range (tpm cm : Table) (partA partB : List ℕ) (n : ℕ)
    (hlen : tpm.length = 2 ^ n)
    (hrows : ∀ row ∈ tpm, row.length = n)
    (hentries : ∀ row ∈ tpm, ∀ x ∈ row, 0 ≤ x ∧ x ≤ 1) :
    CutTpmOk tpm cm partA partB n := by
  unfold CutTpmOk
  refine ⟨?_, ?_, ?_⟩
  · rw [cutTpm, List.length_mapIdx, hlen]
  · intro row hrow
    rw [cutTpm, List.mem_iff_getElem] at hrow
    obtain ⟨i, hi, rfl⟩ := hrow
    rw [List.getElem_mapIdx, List.length_mapIdx]
    exact hrows _ (List.getElem_mem _)
  · intro row hrow x hx
    rw [cutTpm, List.mem_iff_getElem] at hrow
    obtain ⟨i, hi, rfl⟩ := hrow
    rw [List.getElem_mapIdx] at hx
    rw [List.mem_iff_getElem] at hx
    obtain ⟨j, hj, rfl⟩ := hx
    rw [List.getElem_mapIdx]
    have hilen : i < tpm.length := by
      rw [List.length_mapIdx] at hi
      exact hi
    exact cutEntry_bounds tpm cm partA n i j _
      (hentries _ (List.getElem_mem hilen) _ (List.getElem_mem _)) hentries

/-- C9 witness: the XOR network cut along side A = (0,). -/
theorem cut_tpm_shape_and_range_witness :
    (xorTpm.length = 2 ^ 2 ∧ (∀ row ∈ xorTpm, row.length = 2)
        ∧ (∀ row ∈ xorTpm, ∀ x ∈ row, 0 ≤ x ∧ x ≤ 1))
    ∧ CutTpmOk xorTpm fullCm2 [0] [1] 2 :=
  ⟨⟨rfl, by decide, by decide⟩,
    cut_tpm_shape_and_range xorTpm fullCm2 [0] [1] 2 rfl (by decide) (by decide)⟩

end OrionPhi

namespace OrionPhi

unseal Rat.add Rat.mul Rat.inv Rat.sub

set_option maxRecDepth 100000

/-- C6: for the 2-node XOR network at state (1,1), the whole-system
distance computation uses row index 3, effect distribution [0,0],
unconstrained effect baseline [1/2, 1/2] (the elementwise mean of the four
rows), and the effect-information term equals exactly 1. -/
theorem xor_state11_effect_information :
    rowIndex [1, 1] 2 = 3
    ∧ xorTpm.getD (rowIndex [1, 1] 2) [] = [0, 0]
    ∧ colMeans xorTpm 2 = [1 / 2, 1 / 2]
    ∧ absDiffSum (xorTpm.getD (rowIndex [1, 1] 2) []) (colMeans xorTpm 2) = 1 := by
  decide

/-- C5: over the full state space of the canonical 2-node gate networks,
the maximum phi of XOR is strictly greater than the maximum phi of AND and
strictly greater than the maximum phi of OR. -/
theorem xor_max_phi_dominates :
    listMax (statePhis andTpm fullCm2 2) < listMax (statePhis xorTpm fullCm2 2)
    ∧ listMax (statePhis orTpm fullCm2 2) < listMax (statePhis xorTpm fullCm2 2) := by
  decide

end OrionPhi
